import Mathlib

/-
  Verification development for the quiz "big screen" client
  (src/static/js/room.js and the leaderboard module in src/unnamed/part_000).

  Embedding conventions.
  JS numbers are modelled as exact rationals (ℚ).  A JS value that fails the
  source code checks (missing field, non-numeric, NaN, Infinity) is modelled
  as (none : Option ℚ); Number(x) returning a finite value is (some q).
  Strings are Lean String values; JS template rendering of an integer is
  embedded by an executable decimal renderer (natToChars / intToChars below).
  Date.parse and Date.now are platform functions of the host environment and
  are passed in as parameters (parseDate : String → Option ℤ, localNow : ℤ),
  with none standing for NaN.  Stateful module code is embedded as explicit
  state passing; JS Map and Set keep insertion order and are modelled as
  association lists resp. duplicate-free lists in insertion order.
-/

namespace QuizScreen

/-- Decimal digits of a natural number, fuel-driven so that the definition is
structural and computes by kernel reduction.  The fuel bound n + 1 always
exceeds the number of decimal digits of n, so the 0-fuel branch is never
reached when called through natToChars. -/
def natDigitsGo : ℕ → ℕ → List Char
  | 0, _ => []
  | fuel + 1, n =>
    if n < 10 then [Nat.digitChar n]
    else natDigitsGo fuel (n / 10) ++ [Nat.digitChar (n % 10)]

/-- Decimal rendering of a natural number, as JS renders naturals in template
strings. -/
def natToChars (n : ℕ) : List Char := natDigitsGo (n + 1) n

/-- Decimal rendering of an integer, as JS renders integer numbers in template
strings (a leading hyphen for negatives). -/
def intToChars (i : ℤ) : List Char :=
  (if i < 0 then ['-'] else []) ++ natToChars i.natAbs

/-- ES toFixed rounding for a nonnegative rational: the integer n for which
n / scale is closest to x, ties resolved to the larger n. -/
def jsHalfUp (x : ℚ) (scale : ℕ) : ℕ := (⌊x * scale + 1/2⌋).toNat

/-- Characters of JS value.toFixed(0): sign of the value followed by the
rounded integer part, no decimal point. -/
def toFixed0chars (q : ℚ) : List Char :=
  (if q < 0 then ['-'] else []) ++ natToChars (jsHalfUp |q| 1)

/-- Characters of JS value.toFixed(1): sign, integer part, a decimal point and
exactly one fractional digit. -/
def toFixed1chars (q : ℚ) : List Char :=
  (if q < 0 then ['-'] else []) ++
    (let n := jsHalfUp |q| 10
     natToChars (n / 10) ++ ['.', Nat.digitChar (n % 10)])

/-! Leaderboard module (src/unnamed/part_000). -/

/-- Embeds toNumber from the leaderboard module: Number(value) when finite,
otherwise 0. -/
def toNumber (value : Option ℚ) : ℚ :=
  match value with
  | some numeric => numeric
  | none => 0

/-- Embeds toTime from the leaderboard module: Number(value) when finite,
otherwise null. -/
def toTime (value : Option ℚ) : Option ℚ := value

/-- Embeds formatPoints from the leaderboard module, restricted to
integer-like scores (the inputs the claim quantifies over).  The branching on
abs = |score| % 100 and lastDigit = abs % 10 mirrors the source. -/
def formatPoints (value : Option ℤ) : String :=
  let score := value.getD 0
  let abs := score.natAbs % 100
  let lastDigit := abs % 10
  if 10 < abs ∧ abs < 20 then String.mk (intToChars score) ++ " очков"
  else if lastDigit = 1 then String.mk (intToChars score) ++ " очко"
  else if 2 ≤ lastDigit ∧ lastDigit ≤ 4 then String.mk (intToChars score) ++ " очка"
  else String.mk (intToChars score) ++ " очков"

/-- Embeds formatTime from the leaderboard module: dash for a missing or
non-finite value, otherwise toFixed(0) for values at least 100 and toFixed(1)
below that, suffixed with the seconds unit. -/
def formatTime (value : Option ℚ) : String :=
  match toTime value with
  | none => "—"
  | some time =>
    String.mk ((if 100 ≤ time then toFixed0chars time else toFixed1chars time) ++ [' ', 'с'])

/-- Scoreboard entry as consumed by the leaderboard module.  Field values
that are missing or non-numeric in the JS object are modelled as none. -/
structure Entry where
  player : String
  score : Option ℚ
  total_response_time : Option ℚ
  has_fastest_record : Bool
deriving DecidableEq

/-- Embeds the comparator closure passed to sort in sortEntries: the sign of
scoreB - scoreA when the coerced scores differ, otherwise missing times sort
last (both missing compare equal) and present times by the sign of
timeA - timeB. -/
def cmpEntries (a b : Entry) : Ordering :=
  let scoreA := toNumber a.score
  let scoreB := toNumber b.score
  if scoreA ≠ scoreB then
    if scoreB - scoreA < 0 then Ordering.lt else Ordering.gt
  else
    match toTime a.total_response_time, toTime b.total_response_time with
    | none, none => Ordering.eq
    | none, some _ => Ordering.gt
    | some _, none => Ordering.lt
    | some timeA, some timeB =>
      if timeA - timeB < 0 then Ordering.lt
      else if 0 < timeA - timeB then Ordering.gt
      else Ordering.eq

/-- The element a may be placed before b by the comparator: the comparator
does not return a positive number on (a, b). -/
def entryLe (a b : Entry) : Bool :=
  match cmpEntries a b with
  | Ordering.gt => false
  | _ => true

/-- Embeds sortEntries: sorting a copy of the input with the comparator.
Array.prototype.sort is specified as a stable sort and, for a consistent
comparator, has a unique result; List.mergeSort is the standard stable-sort
embedding of it. -/
def sortEntries (entries : List Entry) : List Entry :=
  entries.mergeSort entryLe

/-! Spec-side definitions (written from the wording of the specification,
for comparison against the embedded code). -/

/-- Spec wording for the tie-break on total response time: ascending, with
entries lacking a numeric time ranked after entries that have one. -/
def timeLeSpec (a b : Option ℚ) : Prop :=
  match a, b with
  | none, none => True
  | none, some _ => False
  | some _, none => True
  | some x, some y => x ≤ y

/-- Spec wording of the leaderboard order: score descending, ties broken by
total response time ascending with missing times last. -/
def specLe (a b : Entry) : Prop :=
  toNumber b.score < toNumber a.score ∨
    (toNumber a.score = toNumber b.score ∧
      timeLeSpec (toTime a.total_response_time) (toTime b.total_response_time))

/-- Selects the entries of one score group that lack a numeric total response
time (the entries whose relative order the claim says is preserved). -/
def missingTimeAtScore (s : ℚ) (e : Entry) : Bool :=
  toNumber e.score == s && (toTime e.total_response_time).isNone

/-- Replaces a missing or non-numeric score by the literal score 0, leaving
entries with a numeric score unchanged. -/
def withScoreZero (e : Entry) : Entry :=
  { e with score := some (toNumber e.score) }

/-- Spec wording of the point-label pluralization rule, producing just the
grammatical form. -/
def pointsSuffixSpec (score : ℤ) : String :=
  let abs := score.natAbs % 100
  let last := abs % 10
  if 10 < abs ∧ abs < 20 then "очков"
  else if last = 1 then "очко"
  else if 2 ≤ last ∧ last ≤ 4 then "очка"
  else "очков"

/-- The trailing seconds unit appended by both formatters. -/
def secondsUnitChars : List Char := [' ', 'с']

/-- The string is a numeral with no decimal point followed by the seconds
unit: rendered with 0 decimal places. -/
def rendersWithZeroDecimals (s : String) : Prop :=
  ∃ num : List Char, s.data = num ++ secondsUnitChars ∧ '.' ∉ num

/-- The string is a numeral with exactly one digit after the decimal point
followed by the seconds unit: rendered with 1 decimal place. -/
def rendersWithOneDecimal (s : String) : Prop :=
  ∃ (num : List Char) (d : Char),
    s.data = num ++ ['.', d] ++ secondsUnitChars ∧ '.' ∉ num ∧ d.isDigit = true

/-! Room controller (src/static/js/room.js): shared seconds formatter. -/

/-- Embeds formatSeconds from room.js.  Unlike the leaderboard formatTime, a
missing or non-finite value renders as the dash only when the emptyAsDash
option is set, and as the zero placeholder otherwise. -/
def formatSeconds (value : Option ℚ) (emptyAsDash : Bool) : String :=
  match value with
  | none => if emptyAsDash then "—" else "0.0 с"
  | some q =>
    String.mk ((if 100 ≤ q then toFixed0chars q else toFixed1chars q) ++ [' ', 'с'])

/-! Server clock (room.js, serverClock object).  Date.parse is a platform
function, passed in as parseDate with none for NaN; Date.now is passed in as
localNow.  The argument to sync is Option String, none standing for a missing
or otherwise falsy non-string input. -/

/-- The single piece of state of the serverClock object. -/
structure ClockState where
  offset : ℤ
deriving DecidableEq

namespace serverClock

/-- Embeds serverClock.sync: a falsy input (missing, or the empty string) is
a no-op, an unparseable timestamp is a no-op, and a valid timestamp stores
offset = parsed server timestamp - local now. -/
def sync (parseDate : String → Option ℤ) (localNow : ℤ)
    (serverTimeIso : Option String) (st : ClockState) : ClockState :=
  match serverTimeIso with
  | none => st
  | some s =>
    if s = "" then st
    else
      match parseDate s with
      | none => st
      | some serverTimestamp => ⟨serverTimestamp - localNow⟩

/-- Embeds serverClock.now: local time plus the stored offset. -/
def now (localNow : ℤ) (st : ClockState) : ℤ := localNow + st.offset

end serverClock

/-! Countdown timer (room.js, countdownTimer closure).  The DOM element the
timer renders into is modelled by the three properties the timer touches;
the mutable closure variables timerId / endTime / element form TimerState.
Operations that mutate the referenced element also return its updated value
(second component), since the closure drops the reference on clear. -/

/-- The element properties the countdown timer reads and writes: textContent,
the hidden attribute, and membership of the is-warning class. -/
structure TimerEl where
  text : String
  hidden : Bool
  warning : Bool
deriving DecidableEq

/-- The closure state of countdownTimer: whether an interval is registered
(timerId not null), the absolute end time in ms, and the captured element. -/
structure TimerState where
  running : Bool
  endTime : ℚ
  element : Option TimerEl
deriving DecidableEq

namespace countdownTimer

/-- Embeds cancelTimer: clears the interval if one is registered. -/
def cancelTimer (st : TimerState) : TimerState :=
  { st with running := false }

/-- Embeds render at one tick, with the synchronized clock value passed as
now.  Mirrors the falsy check on endTime, the 00:00 terminal state, and the
mm:ss rendering with the warning class for 10 seconds or less. -/
def render (now : ℚ) (st : TimerState) : TimerState :=
  match st.element with
  | none => cancelTimer st
  | some el =>
    if st.endTime = 0 then cancelTimer st
    else
      let remaining := st.endTime - now
      if remaining ≤ 0 then
        cancelTimer { st with element := some { el with text := "00:00", warning := true } }
      else
        let totalSeconds : ℤ := max 0 ⌈remaining / 1000⌉
        let minutes := List.replicate (2 - (natToChars (totalSeconds / 60).toNat).length) '0'
          ++ natToChars (totalSeconds / 60).toNat
        let seconds := List.replicate (2 - (natToChars (totalSeconds % 60).toNat).length) '0'
          ++ natToChars (totalSeconds % 60).toNat
        { st with element := some { el with
            text := String.mk (minutes ++ [':'] ++ seconds),
            warning := totalSeconds ≤ 10 } }

/-- Embeds countdownTimer.clear: cancel any interval, reset the end time,
and hide the captured element at 00:00 without the warning class.  The
second component is the final value of the element the timer had captured. -/
def clear (st : TimerState) : TimerState × Option TimerEl :=
  let st1 := cancelTimer st
  let updated := st1.element.map fun el =>
    { el with text := "00:00", hidden := true, warning := false }
  ({ st1 with endTime := 0, element := none }, updated)

/-- Embeds countdownTimer.start.  parsedStart is the Date.parse result of the
startIso argument (none for NaN) and duration the Number coercion of
durationSeconds (none for NaN); the falsy test on duration is the zero test.
The second component is the value of the target element afterwards. -/
def start (targetElement : Option TimerEl) (parsedStart : Option ℚ)
    (duration : Option ℚ) (now : ℚ) (st : TimerState) : TimerState × Option TimerEl :=
  let st1 := { st with element := targetElement }
  match targetElement with
  | none => clear st1
  | some _ =>
    match parsedStart, duration with
    | none, _ => clear st1
    | some _, none => clear st1
    | some startTs, some d =>
      if d = 0 ∨ d ≤ 0 then clear st1
      else
        let st2 := { st1 with
          endTime := startTs + d * 1000,
          element := st1.element.map fun el => { el with hidden := false, warning := false } }
        let st3 := render now (cancelTimer st2)
        ({ st3 with running := true }, st3.element)

end countdownTimer

/-! Response-time aggregation (room.js): responseStats map, per-question
fastest tracking and the session-wide timing summary. -/

/-- Per-player running aggregate held in the responseStats map. -/
structure PlayerStats where
  count : ℕ
  total : ℚ
  best : Option ℚ
  worst : Option ℚ
deriving DecidableEq

/-- The responseStats Map, as an association list in insertion order. -/
abbrev StatsMap := List (String × PlayerStats)

/-- The fresh aggregate ensurePlayerStats installs on first sight of a
player. -/
def freshStats : PlayerStats := ⟨0, 0, none, none⟩

/-- Embeds resetResponseStats: responseStats.clear(). -/
def resetResponseStats : StatsMap := []

/-- One observed response time folded into one player aggregate: the body of
the forEach in updateResponseStats acting on the ensured stats record. -/
def applyResult (time : ℚ) (s : PlayerStats) : PlayerStats :=
  { count := s.count + 1
    total := s.total + time
    best := some (match s.best with | none => time | some b => min b time)
    worst := some (match s.worst with | none => time | some w => max w time) }

/-- ensurePlayerStats followed by the stats mutation: update in place when
the player is present, append a freshly created record otherwise (JS Map
keeps insertion order). -/
def upsert (m : StatsMap) (player : String) (time : ℚ) : StatsMap :=
  if m.any (fun e => e.1 == player) then
    m.map fun e => if e.1 == player then (e.1, applyResult time e.2) else e
  else
    m ++ [(player, applyResult time freshStats)]

/-- Looks a player up in the responseStats map. -/
def lookupStats (m : StatsMap) (player : String) : Option PlayerStats :=
  (m.find? (fun e => e.1 == player)).map (fun e => e.2)

/-- JS Set.add on a set modelled as a duplicate-free list in insertion
order. -/
def addToSet (s : List String) (p : String) : List String :=
  if p ∈ s then s else s ++ [p]

/-- The tie tolerance of isSameTime, 1e-6 seconds. -/
def tol : ℚ := 1/1000000

/-- One answer result as consumed by updateResponseStats: the player name
and the Number coercion of response_time (none when not finite). -/
structure ResultItem where
  player : String
  response_time : Option ℚ
deriving DecidableEq

/-- The per-question fastest accumulator of updateResponseStats: bestTime
and the bestPlayers set. -/
structure QuestionBest where
  bestTime : Option ℚ
  bestPlayers : List String
deriving DecidableEq

/-- The body of the forEach in updateResponseStats: skip non-finite times,
fold the time into the player aggregate, then either install a strictly
better (by more than the tolerance) best time with a singleton player set,
add the player on a within-tolerance tie, or leave the accumulator alone. -/
def updStep (acc : StatsMap × QuestionBest) (item : ResultItem) : StatsMap × QuestionBest :=
  match item.response_time with
  | none => acc
  | some time =>
    let m := upsert acc.1 item.player time
    match acc.2.bestTime with
    | none => (m, ⟨some time, [item.player]⟩)
    | some b =>
      if time < b - tol then (m, ⟨some time, [item.player]⟩)
      else if |time - b| ≤ tol then (m, ⟨some b, addToSet acc.2.bestPlayers item.player⟩)
      else (m, ⟨some b, acc.2.bestPlayers⟩)

/-- Embeds updateResponseStats: one aggregation pass over the results list,
returning the updated stats map together with the question-fastest value and
tie set. -/
def updateResponseStats (results : List ResultItem) (m : StatsMap) :
    StatsMap × QuestionBest :=
  results.foldl updStep (m, ⟨none, []⟩)

/-- One row of the perPlayer list built by buildTimingSummary. -/
structure PerPlayer where
  player : String
  count : ℕ
  total : ℚ
  average : Option ℚ
  best : Option ℚ
  worst : Option ℚ
deriving DecidableEq

/-- The session-wide fastest record of buildTimingSummary: the first player
holding the record, its value, and the lazily materialized tie set. -/
structure Fastest where
  player : String
  value : ℚ
  players : Option (List String)
deriving DecidableEq

/-- The summary buildTimingSummary returns. -/
structure TimingSummary where
  perPlayer : List PerPlayer
  fastest : Option Fastest
deriving DecidableEq

/-- The body of the forEach computing the session-wide fastest in
buildTimingSummary: replacement resets the tie set, a within-tolerance tie
materializes the set from the current holder and adds the new player. -/
def sumStep (acc : Option Fastest) (item : PerPlayer) : Option Fastest :=
  match item.best with
  | none => acc
  | some b =>
    match acc with
    | none => some ⟨item.player, b, none⟩
    | some f =>
      if b < f.value - tol then some ⟨item.player, b, none⟩
      else if |b - f.value| ≤ tol then
        some ⟨f.player, f.value, some (addToSet (f.players.getD [f.player]) item.player)⟩
      else some f

/-- Embeds buildTimingSummary: the per-player derived rows (average is null
for a zero count) and the session-wide fastest responder record. -/
def buildTimingSummary (m : StatsMap) : TimingSummary :=
  let perPlayer := m.map fun e =>
    (⟨e.1, e.2.count, e.2.total,
      if e.2.count ≠ 0 then some (e.2.total / e.2.count) else none,
      e.2.best, e.2.worst⟩ : PerPlayer)
  ⟨perPlayer, perPlayer.foldl sumStep none⟩

/-- The set of fastest responders a summary reports, as the final screen
displays it: the record holder followed by the materialized tie set (a JS
Set built from both, in insertion order). -/
def fastestResponders (s : TimingSummary) : List String :=
  match s.fastest with
  | none => []
  | some f => (f.players.getD []).foldl addToSet (addToSet [] f.player)

/-- Embeds the stats effect of the show_question event case: the payload
question_number (none when missing, so that the ?? 0 default applies) resets
the responseStats map when at most 1 and leaves it untouched otherwise. -/
def showQuestionStatsTransition (questionNumber : Option ℚ) (stats : StatsMap) : StatsMap :=
  if (questionNumber.getD 0) ≤ 1 then resetResponseStats else stats

/-! Screen lifecycle (room.js): fetchTemplate, changeState, ensureState.
The fragment endpoint is passed in as fragments : String → Option String
(none for a non-success HTTP response); the asynchronous steps are serialized
by the single-threaded message queue, so the composite is embedded as one
sequential function.  Externally visible actions are recorded as effects;
an exception aborting the call is the none result. -/

/-- Externally visible actions of one ensureState call: a network fragment
fetch, a DOM swap, and a screen handler invocation with its data. -/
inductive ScreenEffect (δ : Type) where
  | fetch (state : String)
  | swap (state : String)
  | invoke (state : String) (data : δ)
deriving DecidableEq

/-- The screens with a registered handler in stateHandlers. -/
def screenNames : List String := ["lobby", "question", "final"]

/-- The controller state ensureState manipulates: the template cache in
insertion order, the name of the current screen, and the mounted fragment
html. -/
structure ScreenState where
  templateCache : List (String × String)
  currentState : Option String
  mounted : Option String
deriving DecidableEq

/-- Embeds fetchTemplate: a cache hit returns the cached html with no
network activity, a cache miss fetches, caches and returns the fragment, and
a non-success response throws (the none result). -/
def fetchTemplate (fragments : String → Option String) (st : ScreenState)
    (state : String) : Option (String × ScreenState × List (ScreenEffect δ)) :=
  match st.templateCache.lookup state with
  | some html => some (html, st, [])
  | none =>
    match fragments state with
    | none => none
    | some html =>
      some (html, { st with templateCache := st.templateCache ++ [(state, html)] },
        [ScreenEffect.fetch state])

/-- Embeds changeState: an early false return when the target screen is
already current, otherwise fetch, swap and only then update currentState. -/
def changeState (fragments : String → Option String) (st : ScreenState)
    (state : String) : Option (Bool × ScreenState × List (ScreenEffect δ)) :=
  if st.currentState = some state then some (false, st, [])
  else
    match fetchTemplate fragments st state with
    | none => none
    | some (html, st1, effs) =>
      some (true,
        { st1 with mounted := some html, currentState := some state },
        effs ++ [ScreenEffect.swap state])

/-- Embeds ensureState: changeState followed by the optional-chained handler
invocation with the payload data. -/
def ensureState (fragments : String → Option String) (st : ScreenState)
    (state : String) (data : δ) : Option (ScreenState × List (ScreenEffect δ)) :=
  match changeState fragments st state with
  | none => none
  | some (_, st1, effs) =>
    some (st1, effs ++ if state ∈ screenNames then [ScreenEffect.invoke state data] else [])

/-! Theorems. -/

theorem digitChar_isDigit {n : ℕ} (h : n < 10) : (Nat.digitChar n).isDigit = true := by
  interval_cases n <;> decide

theorem natDigitsGo_isDigit :
    ∀ (fuel n : ℕ), ∀ c ∈ natDigitsGo fuel n, c.isDigit = true := by
  intro fuel
  induction fuel with
  | zero => intro n c hc; simp [natDigitsGo] at hc
  | succ fuel ih =>
    intro n c hc
    simp only [natDigitsGo] at hc
    split at hc
    · simp only [List.mem_singleton] at hc
      subst hc
      exact digitChar_isDigit (by assumption)
    · rcases List.mem_append.mp hc with h | h
      · exact ih _ _ h
      · simp only [List.mem_singleton] at h
        subst h
        exact digitChar_isDigit (Nat.mod_lt _ (by norm_num))

theorem natToChars_isDigit (n : ℕ) : ∀ c ∈ natToChars n, c.isDigit = true :=
  natDigitsGo_isDigit _ n

theorem isDigit_ne_dot {c : Char} (h : c.isDigit = true) : c ≠ '.' := by
  intro hc
  subst hc
  simp at h

theorem dot_not_mem_natToChars (n : ℕ) : '.' ∉ natToChars n := by
  intro h
  exact isDigit_ne_dot (natToChars_isDigit n _ h) rfl

theorem dot_not_mem_toFixed0chars (q : ℚ) : '.' ∉ toFixed0chars q := by
  intro h
  rcases List.mem_append.mp h with h | h
  · split at h <;> simp at h
  · exact dot_not_mem_natToChars _ h

/-- C4: for every integer-like score the point label is the rendered score
followed by the grammatical form the branching rule of §4.4 selects, with
the five example values checking out concretely. -/
theorem formatPoints_matches_spec :
    (∀ v : Option ℤ,
      formatPoints v
        = String.mk (intToChars (v.getD 0)) ++ (" " ++ pointsSuffixSpec (v.getD 0)))
    ∧ formatPoints (some 1) = "1 очко"
    ∧ formatPoints (some 2) = "2 очка"
    ∧ formatPoints (some 5) = "5 очков"
    ∧ formatPoints (some 11) = "11 очков"
    ∧ formatPoints (some 21) = "21 очко"
  := by
  refine ⟨?_, by decide, by decide, by decide, by decide, by decide⟩
  intro v
  unfold formatPoints pointsSuffixSpec
  dsimp only
  split_ifs <;> rfl

/-- C2 counterexample: formatSeconds called without the emptyAsDash option
(as the plain room display does) renders a missing or non-finite value as the
zero placeholder, not the dash. -/
theorem formatSeconds_default_not_dash :
    formatSeconds none false ≠ "—" ∧ formatSeconds none false = "0.0 с" := by
  constructor <;> decide

/-- C2 (amended): finite values at least 100 render with 0 decimal places
and the seconds unit, finite values below 100 with exactly 1 decimal place
and the seconds unit, in both formatters; a missing or non-finite value
renders as the dash in formatTime always, and in formatSeconds only when the
emptyAsDash option is set, as the zero placeholder otherwise. -/
theorem seconds_formatting_spec :
    (∀ q : ℚ, 100 ≤ q →
      rendersWithZeroDecimals (formatTime (some q))
        ∧ ∀ b : Bool, rendersWithZeroDecimals (formatSeconds (some q) b))
    ∧ (∀ q : ℚ, q < 100 →
      rendersWithOneDecimal (formatTime (some q))
        ∧ ∀ b : Bool, rendersWithOneDecimal (formatSeconds (some q) b))
    ∧ formatTime none = "—"
    ∧ (∀ b : Bool, formatSeconds none b = if b then "—" else "0.0 с")
  := by
  have hzero : ∀ q : ℚ, 100 ≤ q →
      rendersWithZeroDecimals (String.mk
        ((if 100 ≤ q then toFixed0chars q else toFixed1chars q) ++ [' ', 'с'])) := by
    intro q hq
    refine ⟨toFixed0chars q, ?_, dot_not_mem_toFixed0chars q⟩
    rw [if_pos hq]
    rfl
  have hone : ∀ q : ℚ, q < 100 →
      rendersWithOneDecimal (String.mk
        ((if 100 ≤ q then toFixed0chars q else toFixed1chars q) ++ [' ', 'с'])) := by
    intro q hq
    refine ⟨(if q < 0 then ['-'] else []) ++ natToChars (jsHalfUp |q| 10 / 10),
      Nat.digitChar (jsHalfUp |q| 10 % 10), ?_, ?_, ?_⟩
    · rw [if_neg (not_le.mpr hq)]
      show (toFixed1chars q ++ [' ', 'с'])
        = ((if q < 0 then ['-'] else []) ++ natToChars (jsHalfUp |q| 10 / 10))
          ++ ['.', Nat.digitChar (jsHalfUp |q| 10 % 10)] ++ secondsUnitChars
      unfold toFixed1chars secondsUnitChars
      simp [List.append_assoc]
    · intro h
      rcases List.mem_append.mp h with h | h
      · split at h <;> simp at h
      · exact dot_not_mem_natToChars _ h
    · exact digitChar_isDigit (Nat.mod_lt _ (by norm_num))
  refine ⟨?_, ?_, rfl, ?_⟩
  · intro q hq
    exact ⟨hzero q hq, fun _ => hzero q hq⟩
  · intro q hq
    exact ⟨hone q hq, fun _ => hone q hq⟩
  · intro b
    cases b <;> rfl

/-- C2 witness: the general formatting theorem applied at the concrete
values 150 and 5/2. -/
theorem seconds_formatting_spec_witness :
    rendersWithZeroDecimals (formatTime (some 150))
      ∧ rendersWithOneDecimal (formatSeconds (some (5/2)) false) :=
  ⟨(seconds_formatting_spec.1 150 (by norm_num)).1,
    (seconds_formatting_spec.2.1 (5/2) (by norm_num)).2 false⟩

/-- C5: a show_question payload with question number at most 1 (or missing,
defaulting to 0) empties the per-player statistics map, and a question number
above 1 leaves it unchanged. -/
theorem showQuestion_reset_rule (qn : Option ℚ) (stats : StatsMap) :
    (∀ q : ℚ, qn = some q → q ≤ 1 → showQuestionStatsTransition qn stats = [])
    ∧ (qn = none → showQuestionStatsTransition qn stats = [])
    ∧ (∀ q : ℚ, qn = some q → 1 < q → showQuestionStatsTransition qn stats = stats)
  := by
  refine ⟨?_, ?_, ?_⟩
  · intro q hq hle
    subst hq
    simp only [showQuestionStatsTransition, Option.getD_some]
    rw [if_pos hle]
    rfl
  · intro hq
    subst hq
    simp only [showQuestionStatsTransition, Option.getD_none]
    rw [if_pos (by norm_num)]
    rfl
  · intro q hq hgt
    subst hq
    simp only [showQuestionStatsTransition, Option.getD_some]
    rw [if_neg (not_le.mpr hgt)]

/-- C5 witness: question number 1 wipes a nonempty map, question number 2
keeps it. -/
theorem showQuestion_reset_rule_witness :
    showQuestionStatsTransition (some 1) [("A", freshStats)] = []
      ∧ showQuestionStatsTransition (some 2) [("A", freshStats)] = [("A", freshStats)] :=
  ⟨(showQuestion_reset_rule (some 1) [("A", freshStats)]).1 1 rfl (by norm_num),
    (showQuestion_reset_rule (some 2) [("A", freshStats)]).2.2 2 rfl (by norm_num)⟩

/-- C6: a sync with a nonempty string that parses stores exactly
parsed minus local now, overwriting whatever was there (the result does not
depend on the prior state); missing, empty or unparseable input is a no-op;
and now always returns local time plus the stored offset. -/
theorem serverClock_contract (parseDate : String → Option ℤ) (localNow : ℤ)
    (st : ClockState) (s : String) (ts : ℤ) :
    (s ≠ "" → parseDate s = some ts →
      serverClock.sync parseDate localNow (some s) st = ⟨ts - localNow⟩)
    ∧ (parseDate s = none → serverClock.sync parseDate localNow (some s) st = st)
    ∧ serverClock.sync parseDate localNow none st = st
    ∧ serverClock.sync parseDate localNow (some "") st = st
    ∧ serverClock.now localNow st = localNow + st.offset
    ∧ (∀ st2 : ClockState, s ≠ "" → parseDate s = some ts →
        serverClock.sync parseDate localNow (some s) st
          = serverClock.sync parseDate localNow (some s) st2)
  := by
  refine ⟨?_, ?_, rfl, ?_, rfl, ?_⟩
  · intro hs hp
    simp only [serverClock.sync]
    rw [if_neg hs, hp]
  · intro hp
    simp only [serverClock.sync]
    by_cases hs : s = ""
    · rw [if_pos hs]
    · rw [if_neg hs, hp]
  · simp [serverClock.sync]
  · intro st2 hs hp
    simp only [serverClock.sync, if_neg hs, hp]

/-- C6 witness: the contract applied to a concrete parse function, local
time 2 and server timestamp 5. -/
theorem serverClock_contract_witness :
    serverClock.sync (fun x => if x = "t" then some 5 else none) 2 (some "t") ⟨0⟩
      = ⟨5 - 2⟩ :=
  (serverClock_contract (fun x => if x = "t" then some 5 else none) 2 ⟨0⟩ "t" 5).1
    (by decide) (by decide)

/-- C7: starting the countdown on an element with an unparseable start
timestamp, or a missing, zero, non-numeric or negative duration, is exactly
clear on the state that has captured the element: no interval runs, the end
time is reset, and the element ends hidden showing 00:00 without the warning
class. -/
theorem countdown_malformed_clears (el : TimerEl) (st : TimerState)
    (parsedStart duration : Option ℚ) (now : ℚ)
    (h : parsedStart = none ∨ duration = none ∨ ∃ d, duration = some d ∧ d ≤ 0) :
    countdownTimer.start (some el) parsedStart duration now st
      = countdownTimer.clear { st with element := some el }
    ∧ countdownTimer.start (some el) parsedStart duration now st
      = (⟨false, 0, none⟩, some ⟨"00:00", true, false⟩)
  := by
  have hclear : countdownTimer.clear { st with element := some el }
      = (⟨false, 0, none⟩, some ⟨"00:00", true, false⟩) := rfl
  rcases h with h | h | ⟨d, hd, hle⟩
  · subst h
    exact ⟨rfl, hclear⟩
  · subst h
    cases parsedStart <;> exact ⟨rfl, hclear⟩
  · subst hd
    cases parsedStart with
    | none => exact ⟨rfl, hclear⟩
    | some p =>
      have : countdownTimer.start (some el) (some p) (some d) now st
          = countdownTimer.clear { st with element := some el } := by
        simp only [countdownTimer.start]
        rw [if_pos (Or.inr hle)]
      exact ⟨this, this.trans hclear⟩

/-- C7 witness: a missing parse result with a positive duration degrades to
the cleared state. -/
theorem countdown_malformed_clears_witness :
    countdownTimer.start (some ⟨"x", false, false⟩) none (some 3) 0 ⟨true, 5, none⟩
      = (⟨false, 0, none⟩, some ⟨"00:00", true, false⟩) :=
  (countdown_malformed_clears ⟨"x", false, false⟩ ⟨true, 5, none⟩ none (some 3) 0
    (Or.inl rfl)).2

/-- C8: when the lobby screen is already current, ensureState for the lobby
performs no fragment fetch and no DOM swap, leaves the template cache, the
mounted fragment and currentState untouched, and only re-invokes the lobby
handler with the data. -/
theorem ensureState_lobby_noop {δ : Type} (fragments : String → Option String)
    (st : ScreenState) (data : δ) (h : st.currentState = some "lobby") :
    ensureState fragments st "lobby" data
      = some (st, [ScreenEffect.invoke "lobby" data]) := by
  simp only [ensureState, changeState]
  rw [if_pos h]
  simp [screenNames]

/-- C1: from empty stats, the results list A:2.0, B:2.0, C:3.0 yields a
question-fastest value of 2.0 with tie set exactly A, B; a second results
list with A at 1.5 updates the stored best of A to 1.5, and the session-wide
summary then reports A as the sole fastest responder (record holder A at
1.5 with no materialized tie set). -/
theorem aggregator_scenario :
    updateResponseStats [⟨"A", some 2⟩, ⟨"B", some 2⟩, ⟨"C", some 3⟩] resetResponseStats
      = ([("A", ⟨1, 2, some 2, some 2⟩), ("B", ⟨1, 2, some 2, some 2⟩),
          ("C", ⟨1, 3, some 3, some 3⟩)], ⟨some 2, ["A", "B"]⟩)
    ∧ updateResponseStats [⟨"A", some (3/2)⟩]
        [("A", ⟨1, 2, some 2, some 2⟩), ("B", ⟨1, 2, some 2, some 2⟩),
          ("C", ⟨1, 3, some 3, some 3⟩)]
      = ([("A", ⟨2, 7/2, some (3/2), some 2⟩), ("B", ⟨1, 2, some 2, some 2⟩),
          ("C", ⟨1, 3, some 3, some 3⟩)], ⟨some (3/2), ["A"]⟩)
    ∧ lookupStats
        [("A", ⟨2, 7/2, some (3/2), some 2⟩), ("B", ⟨1, 2, some 2, some 2⟩),
          ("C", ⟨1, 3, some 3, some 3⟩)] "A"
      = some ⟨2, 7/2, some (3/2), some 2⟩
    ∧ buildTimingSummary
        [("A", ⟨2, 7/2, some (3/2), some 2⟩), ("B", ⟨1, 2, some 2, some 2⟩),
          ("C", ⟨1, 3, some 3, some 3⟩)]
      = ⟨[⟨"A", 2, 7/2, some (7/4), some (3/2), some 2⟩,
          ⟨"B", 1, 2, some 2, some 2, some 2⟩,
          ⟨"C", 1, 3, some 3, some 3, some 3⟩], some ⟨"A", 3/2, none⟩⟩
    ∧ fastestResponders
        ⟨[⟨"A", 2, 7/2, some (7/4), some (3/2), some 2⟩,
          ⟨"B", 1, 2, some 2, some 2, some 2⟩,
          ⟨"C", 1, 3, some 3, some 3, some 3⟩], some ⟨"A", 3/2, none⟩⟩ = ["A"]
  := by
  refine ⟨?_, ?_, ?_, ?_, ?_⟩
  · norm_num [updateResponseStats, updStep, upsert, applyResult, freshStats, addToSet,
      tol, resetResponseStats, abs_le]
    decide
  · norm_num [updateResponseStats, updStep, upsert, applyResult, freshStats, addToSet,
      tol, abs_le]
    decide
  · norm_num [lookupStats, List.find?]
  · norm_num [buildTimingSummary, sumStep, addToSet, tol, abs_le]
  · norm_num [fastestResponders, addToSet]

/-- C8 witness: the no-op applied at a concrete already-in-lobby state. -/
theorem ensureState_lobby_noop_witness :
    ensureState (fun _ => none) ⟨[], some "lobby", none⟩ "lobby" (0 : ℕ)
      = some (⟨[], some "lobby", none⟩, [ScreenEffect.invoke "lobby" (0 : ℕ)]) :=
  ensureState_lobby_noop (fun _ => none) ⟨[], some "lobby", none⟩ 0 rfl

theorem timeLeSpec_trans (x y z : Option ℚ) (h1 : timeLeSpec x y) (h2 : timeLeSpec y z) :
    timeLeSpec x z := by
  cases x <;> cases y <;> cases z <;> simp_all [timeLeSpec]
  exact h1.trans h2

theorem timeLeSpec_total (x y : Option ℚ) : timeLeSpec x y ∨ timeLeSpec y x := by
  cases x <;> cases y <;> simp_all [timeLeSpec]
  exact le_total _ _

theorem entryLe_iff (a b : Entry) : entryLe a b = true ↔ specLe a b := by
  unfold entryLe cmpEntries specLe timeLeSpec toTime
  dsimp only
  by_cases hs : toNumber a.score = toNumber b.score
  · rw [if_neg (not_not_intro hs)]
    rcases a.total_response_time with _ | x <;> rcases b.total_response_time with _ | y <;>
      dsimp only
    · simp [hs]
    · simp [hs]
    · simp [hs]
    · split_ifs with h1 h2
      · simp only [sub_neg] at h1
        simp [hs, le_of_lt h1]
      · simp only [sub_pos] at h2
        simp [hs, not_le.mpr h2]
      · simp only [sub_neg, not_lt] at h1
        simp only [sub_pos, not_lt] at h2
        simp [hs, h2]
  · rw [if_pos hs]
    by_cases hlt : toNumber b.score - toNumber a.score < 0
    · rw [if_pos hlt]
      simp only [sub_neg] at hlt
      simp [hlt]
    · rw [if_neg hlt]
      simp only [sub_neg, not_lt] at hlt
      simp [hs, not_lt.mpr hlt]

theorem specLe_trans {a b c : Entry} (h1 : specLe a b) (h2 : specLe b c) : specLe a c := by
  unfold specLe at *
  rcases h1 with h1 | ⟨h1, h1t⟩ <;> rcases h2 with h2 | ⟨h2, h2t⟩
  · exact Or.inl (h2.trans h1)
  · exact Or.inl (h2 ▸ h1)
  · exact Or.inl (h1 ▸ h2)
  · exact Or.inr ⟨h1.trans h2, timeLeSpec_trans _ _ _ h1t h2t⟩

theorem specLe_total (a b : Entry) : specLe a b ∨ specLe b a := by
  unfold specLe
  rcases lt_trichotomy (toNumber a.score) (toNumber b.score) with h | h | h
  · exact Or.inr (Or.inl h)
  · rcases timeLeSpec_total (toTime a.total_response_time) (toTime b.total_response_time)
      with ht | ht
    · exact Or.inl (Or.inr ⟨h, ht⟩)
    · exact Or.inr (Or.inr ⟨h.symm, ht⟩)
  · exact Or.inl (Or.inl h)

theorem entryLe_trans (a b c : Entry) (h1 : entryLe a b) (h2 : entryLe b c) : entryLe a c := by
  rw [entryLe_iff] at *
  exact specLe_trans h1 h2

theorem entryLe_total (a b : Entry) : entryLe a b || entryLe b a := by
  rcases specLe_total a b with h | h
  · simp [(entryLe_iff a b).mpr h]
  · simp [(entryLe_iff b a).mpr h]

theorem missingTime_mutual_le {s : ℚ} {a b : Entry}
    (ha : missingTimeAtScore s a = true) (hb : missingTimeAtScore s b = true) :
    entryLe a b = true := by
  simp only [missingTimeAtScore, Bool.and_eq_true, beq_iff_eq,
    Option.isNone_iff_eq_none, toTime] at ha hb
  rw [entryLe_iff]
  unfold specLe timeLeSpec toTime
  rw [ha.2, hb.2]
  exact Or.inr ⟨ha.1.trans hb.1.symm, trivial⟩

theorem sortEntries_perm (l : List Entry) : (sortEntries l).Perm l :=
  List.mergeSort_perm l entryLe

theorem sortEntries_pairwise (l : List Entry) : (sortEntries l).Pairwise specLe :=
  (List.sorted_mergeSort entryLe_trans entryLe_total l).imp fun h => (entryLe_iff _ _).mp h

theorem sortEntries_filter_missing (l : List Entry) (s : ℚ) :
    (sortEntries l).filter (missingTimeAtScore s) = l.filter (missingTimeAtScore s) := by
  have hpw : (l.filter (missingTimeAtScore s)).Pairwise (fun a b => entryLe a b = true) := by
    apply List.pairwise_of_forall_mem_list
    intro a hain b hbin
    exact missingTime_mutual_le (List.of_mem_filter hain) (List.of_mem_filter hbin)
  have hsub : List.Sublist (l.filter (missingTimeAtScore s)) l := List.filter_sublist l
  have h3 : List.Sublist (l.filter (missingTimeAtScore s)) (sortEntries l) :=
    List.sublist_mergeSort entryLe_trans entryLe_total hpw hsub
  have h4 : List.Sublist ((l.filter (missingTimeAtScore s)).filter (missingTimeAtScore s))
      ((sortEntries l).filter (missingTimeAtScore s)) := h3.filter _
  rw [List.filter_filter] at h4
  simp only [Bool.and_self] at h4
  have h5 : ((sortEntries l).filter (missingTimeAtScore s)).length
      = (l.filter (missingTimeAtScore s)).length :=
    ((sortEntries_perm l).filter (missingTimeAtScore s)).length_eq
  exact (h4.eq_of_length h5.symm).symm

theorem sortEntries_idem (l : List Entry) : sortEntries (sortEntries l) = sortEntries l :=
  List.mergeSort_of_sorted (List.sorted_mergeSort entryLe_trans entryLe_total l)

theorem entryLe_withScoreZero (a b : Entry) :
    entryLe a b = entryLe (withScoreZero a) (withScoreZero b) := rfl

theorem sortEntries_withScoreZero (l : List Entry) :
    (sortEntries l).map withScoreZero = sortEntries (l.map withScoreZero) :=
  List.map_mergeSort fun a _ b _ => entryLe_withScoreZero a b

theorem sortEntries_scores_anti (l : List Entry) :
    (sortEntries l).Pairwise (fun a b => toNumber b.score ≤ toNumber a.score) :=
  (sortEntries_pairwise l).imp fun h => by
    rcases h with h | ⟨h, _⟩
    · exact le_of_lt h
    · exact le_of_eq h.symm

/-- C3: the leaderboard sort returns a permutation of its input that is
sorted for the spec order (score descending, ties by total response time
ascending with missing times after present ones), preserves the relative
order of the missing-time entries of each score group, and is idempotent.
The embedding is a pure function on lists, so the input value is unchanged
by construction, matching the source making a copy before sorting. -/
theorem leaderboard_sort_correct (l : List Entry) :
    (sortEntries l).Perm l
    ∧ (sortEntries l).Pairwise specLe
    ∧ (∀ s : ℚ, (sortEntries l).filter (missingTimeAtScore s)
        = l.filter (missingTimeAtScore s))
    ∧ sortEntries (sortEntries l) = sortEntries l :=
  ⟨sortEntries_perm l, sortEntries_pairwise l,
    fun s => sortEntries_filter_missing l s, sortEntries_idem l⟩

/-- C10: the sort coerces a missing or non-numeric score to 0: output scores
are nonincreasing under that coercion, sorting commutes with replacing a
missing score by a literal 0, and concretely a scoreless entry lands after
the positive scores and before the negative ones rather than last, while a
missing total response time demotes an entry only within its score group. -/
theorem missing_score_ranks_as_zero (l : List Entry) :
    (sortEntries l).Pairwise (fun a b => toNumber b.score ≤ toNumber a.score)
    ∧ (sortEntries l).map withScoreZero = sortEntries (l.map withScoreZero)
    ∧ sortEntries [⟨"N", none, some 1, false⟩, ⟨"P", some 5, some 1, false⟩,
        ⟨"M", some (-1), some 1, false⟩]
      = [⟨"P", some 5, some 1, false⟩, ⟨"N", none, some 1, false⟩,
          ⟨"M", some (-1), some 1, false⟩]
    ∧ sortEntries [⟨"X", some 1, none, false⟩, ⟨"Y", some 0, some 5, false⟩]
      = [⟨"X", some 1, none, false⟩, ⟨"Y", some 0, some 5, false⟩] := by
  refine ⟨sortEntries_scores_anti l, sortEntries_withScoreZero l, ?_, ?_⟩
  · norm_num [sortEntries, List.mergeSort, List.splitInTwo, List.splitAt,
      List.splitAt.go, List.merge, entryLe, cmpEntries, toNumber, toTime]
  · norm_num [sortEntries, List.mergeSort, List.splitInTwo, List.splitAt,
      List.splitAt.go, List.merge, entryLe, cmpEntries, toNumber, toTime]

theorem tol_pos : (0 : ℚ) < tol := by norm_num [tol]

theorem updFold_mono (l : List ResultItem) :
    ∀ (ms : StatsMap) (b0 : ℚ) (ps : List String),
    ∃ b : ℚ, b ≤ b0 ∧ (l.foldl updStep (ms, ⟨some b0, ps⟩)).2.bestTime = some b := by
  induction l with
  | nil => intro ms b0 ps; exact ⟨b0, le_refl b0, rfl⟩
  | cons x l ih =>
    intro ms b0 ps
    rcases hx : x.response_time with _ | t
    · have hstep : updStep (ms, ⟨some b0, ps⟩) x = (ms, ⟨some b0, ps⟩) := by
        simp only [updStep, hx]
      rw [List.foldl_cons, hstep]
      exact ih ms b0 ps
    · by_cases h1 : t < b0 - tol
      · have hstep : updStep (ms, ⟨some b0, ps⟩) x
            = (upsert ms x.player t, ⟨some t, [x.player]⟩) := by
          simp only [updStep, hx]
          rw [if_pos h1]
        rw [List.foldl_cons, hstep]
        obtain ⟨b, hb, hf⟩ := ih (upsert ms x.player t) t [x.player]
        refine ⟨b, hb.trans ?_, hf⟩
        have := tol_pos
        linarith
      · by_cases h2 : |t - b0| ≤ tol
        · have hstep : updStep (ms, ⟨some b0, ps⟩) x
              = (upsert ms x.player t, ⟨some b0, addToSet ps x.player⟩) := by
            simp only [updStep, hx]
            rw [if_neg h1, if_pos h2]
          rw [List.foldl_cons, hstep]
          exact ih _ b0 _
        · have hstep : updStep (ms, ⟨some b0, ps⟩) x
              = (upsert ms x.player t, ⟨some b0, ps⟩) := by
            simp only [updStep, hx]
            rw [if_neg h1, if_neg h2]
          rw [List.foldl_cons, hstep]
          exact ih _ b0 _

theorem updFold_lower (l : List ResultItem) :
    ∀ (ms : StatsMap) (qb : QuestionBest) (b : ℚ),
    (l.foldl updStep (ms, qb)).2.bestTime = some b →
    ∀ item ∈ l, ∀ t : ℚ, item.response_time = some t → b - tol ≤ t := by
  induction l with
  | nil => intro ms qb b _ item hm; cases hm
  | cons x l ih =>
    intro ms qb b hf item hmem t ht
    rcases List.mem_cons.mp hmem with rfl | hmem
    · rcases qb with ⟨bt, ps⟩
      rcases bt with _ | b0
      · have hstep : updStep (ms, (⟨none, ps⟩ : QuestionBest)) item
            = (upsert ms item.player t, ⟨some t, [item.player]⟩) := by
          simp only [updStep, ht]
        rw [List.foldl_cons, hstep] at hf
        obtain ⟨b', hb', hf'⟩ := updFold_mono l (upsert ms item.player t) t [item.player]
        rw [hf] at hf'
        have hb : b = b' := Option.some.inj hf'
        have := tol_pos
        linarith [hb ▸ hb']
      · by_cases h1 : t < b0 - tol
        · have hstep : updStep (ms, (⟨some b0, ps⟩ : QuestionBest)) item
              = (upsert ms item.player t, ⟨some t, [item.player]⟩) := by
            simp only [updStep, ht]
            rw [if_pos h1]
          rw [List.foldl_cons, hstep] at hf
          obtain ⟨b', hb', hf'⟩ := updFold_mono l (upsert ms item.player t) t [item.player]
          rw [hf] at hf'
          have hb : b = b' := Option.some.inj hf'
          have := tol_pos
          linarith [hb ▸ hb']
        · have hge : b0 - tol ≤ t := not_lt.mp h1
          by_cases h2 : |t - b0| ≤ tol
          · have hstep : updStep (ms, (⟨some b0, ps⟩ : QuestionBest)) item
                = (upsert ms item.player t, ⟨some b0, addToSet ps item.player⟩) := by
              simp only [updStep, ht]
              rw [if_neg h1, if_pos h2]
            rw [List.foldl_cons, hstep] at hf
            obtain ⟨b', hb', hf'⟩ := updFold_mono l (upsert ms item.player t) b0
              (addToSet ps item.player)
            rw [hf] at hf'
            have hb : b = b' := Option.some.inj hf'
            linarith [hb ▸ hb']
          · have hstep : updStep (ms, (⟨some b0, ps⟩ : QuestionBest)) item
                = (upsert ms item.player t, ⟨some b0, ps⟩) := by
              simp only [updStep, ht]
              rw [if_neg h1, if_neg h2]
            rw [List.foldl_cons, hstep] at hf
            obtain ⟨b', hb', hf'⟩ := updFold_mono l (upsert ms item.player t) b0 ps
            rw [hf] at hf'
            have hb : b = b' := Option.some.inj hf'
            linarith [hb ▸ hb']
    · rcases hacc : updStep (ms, qb) x with ⟨ms1, qb1⟩
      rw [List.foldl_cons, hacc] at hf
      exact ih ms1 qb1 b hf item hmem t ht

theorem updFold_mem (l : List ResultItem) :
    ∀ (ms : StatsMap) (qb : QuestionBest) (b : ℚ),
    (l.foldl updStep (ms, qb)).2.bestTime = some b →
    qb.bestTime = some b ∨ ∃ item ∈ l, item.response_time = some b := by
  induction l with
  | nil => intro ms qb b hf; exact Or.inl hf
  | cons x l ih =>
    intro ms qb b hf
    rcases hx : x.response_time with _ | t
    · have hstep : updStep (ms, qb) x = (ms, qb) := by
        simp only [updStep, hx]
      rw [List.foldl_cons, hstep] at hf
      rcases ih ms qb b hf with h | ⟨item, hm, hb⟩
      · exact Or.inl h
      · exact Or.inr ⟨item, List.mem_cons_of_mem x hm, hb⟩
    · rcases qb with ⟨bt, ps⟩
      rcases bt with _ | b0
      · have hstep : updStep (ms, (⟨none, ps⟩ : QuestionBest)) x
            = (upsert ms x.player t, ⟨some t, [x.player]⟩) := by
          simp only [updStep, hx]
        rw [List.foldl_cons, hstep] at hf
        rcases ih _ _ b hf with h | ⟨item, hm, hb⟩
        · have ht : t = b := Option.some.inj h
          exact Or.inr ⟨x, List.mem_cons_self x l, ht ▸ hx⟩
        · exact Or.inr ⟨item, List.mem_cons_of_mem x hm, hb⟩
      · by_cases h1 : t < b0 - tol
        · have hstep : updStep (ms, (⟨some b0, ps⟩ : QuestionBest)) x
              = (upsert ms x.player t, ⟨some t, [x.player]⟩) := by
            simp only [updStep, hx]
            rw [if_pos h1]
          rw [List.foldl_cons, hstep] at hf
          rcases ih _ _ b hf with h | ⟨item, hm, hb⟩
          · have ht : t = b := Option.some.inj h
            exact Or.inr ⟨x, List.mem_cons_self x l, ht ▸ hx⟩
          · exact Or.inr ⟨item, List.mem_cons_of_mem x hm, hb⟩
        · by_cases h2 : |t - b0| ≤ tol
          · have hstep : updStep (ms, (⟨some b0, ps⟩ : QuestionBest)) x
                = (upsert ms x.player t, ⟨some b0, addToSet ps x.player⟩) := by
              simp only [updStep, hx]
              rw [if_neg h1, if_pos h2]
            rw [List.foldl_cons, hstep] at hf
            rcases ih _ _ b hf with h | ⟨item, hm, hb⟩
            · exact Or.inl h
            · exact Or.inr ⟨item, List.mem_cons_of_mem x hm, hb⟩
          · have hstep : updStep (ms, (⟨some b0, ps⟩ : QuestionBest)) x
                = (upsert ms x.player t, ⟨some b0, ps⟩) := by
              simp only [updStep, hx]
              rw [if_neg h1, if_neg h2]
            rw [List.foldl_cons, hstep] at hf
            rcases ih _ _ b hf with h | ⟨item, hm, hb⟩
            · exact Or.inl h
            · exact Or.inr ⟨item, List.mem_cons_of_mem x hm, hb⟩

theorem sumFold_mono (l : List PerPlayer) :
    ∀ f0 : Fastest,
    ∃ f : Fastest, l.foldl sumStep (some f0) = some f ∧ f.value ≤ f0.value := by
  induction l with
  | nil => intro f0; exact ⟨f0, rfl, le_refl _⟩
  | cons x l ih =>
    intro f0
    rcases hx : x.best with _ | b
    · have hstep : sumStep (some f0) x = some f0 := by
        simp only [sumStep, hx]
      rw [List.foldl_cons, hstep]
      exact ih f0
    · by_cases h1 : b < f0.value - tol
      · have hstep : sumStep (some f0) x = some ⟨x.player, b, none⟩ := by
          simp only [sumStep, hx]
          rw [if_pos h1]
        rw [List.foldl_cons, hstep]
        obtain ⟨f, hf, hv⟩ := ih ⟨x.player, b, none⟩
        refine ⟨f, hf, hv.trans ?_⟩
        have := tol_pos
        show b ≤ f0.value
        linarith
      · by_cases h2 : |b - f0.value| ≤ tol
        · have hstep : sumStep (some f0) x
              = some ⟨f0.player, f0.value,
                  some (addToSet (f0.players.getD [f0.player]) x.player)⟩ := by
            simp only [sumStep, hx]
            rw [if_neg h1, if_pos h2]
          rw [List.foldl_cons, hstep]
          obtain ⟨f, hf, hv⟩ := ih
            ⟨f0.player, f0.value, some (addToSet (f0.players.getD [f0.player]) x.player)⟩
          exact ⟨f, hf, hv⟩
        · have hstep : sumStep (some f0) x = some f0 := by
            simp only [sumStep, hx]
            rw [if_neg h1, if_neg h2]
          rw [List.foldl_cons, hstep]
          exact ih f0

theorem sumFold_lower (l : List PerPlayer) :
    ∀ (acc : Option Fastest) (f : Fastest),
    l.foldl sumStep acc = some f →
    ∀ item ∈ l, ∀ b : ℚ, item.best = some b → f.value - tol ≤ b := by
  induction l with
  | nil => intro acc f _ item hm; cases hm
  | cons x l ih =>
    intro acc f hf item hmem b hb
    rcases List.mem_cons.mp hmem with rfl | hmem
    · rcases acc with _ | f0
      · have hstep : sumStep none item = some ⟨item.player, b, none⟩ := by
          simp only [sumStep, hb]
        rw [List.foldl_cons, hstep] at hf
        obtain ⟨f', hf', hv⟩ := sumFold_mono l ⟨item.player, b, none⟩
        rw [hf] at hf'
        have heq : f = f' := Option.some.inj hf'
        have htol := tol_pos
        rw [heq]
        simp only at hv
        linarith
      · by_cases h1 : b < f0.value - tol
        · have hstep : sumStep (some f0) item = some ⟨item.player, b, none⟩ := by
            simp only [sumStep, hb]
            rw [if_pos h1]
          rw [List.foldl_cons, hstep] at hf
          obtain ⟨f', hf', hv⟩ := sumFold_mono l ⟨item.player, b, none⟩
          rw [hf] at hf'
          have heq : f = f' := Option.some.inj hf'
          have := tol_pos
          subst heq
          show f.value - tol ≤ b
          linarith
        · have hge : f0.value - tol ≤ b := not_lt.mp h1
          by_cases h2 : |b - f0.value| ≤ tol
          · have hstep : sumStep (some f0) item
                = some ⟨f0.player, f0.value,
                    some (addToSet (f0.players.getD [f0.player]) item.player)⟩ := by
              simp only [sumStep, hb]
              rw [if_neg h1, if_pos h2]
            rw [List.foldl_cons, hstep] at hf
            obtain ⟨f', hf', hv⟩ := sumFold_mono l
              ⟨f0.player, f0.value, some (addToSet (f0.players.getD [f0.player]) item.player)⟩
            rw [hf] at hf'
            have heq : f = f' := Option.some.inj hf'
            subst heq
            show f.value - tol ≤ b
            simp only at hv
            linarith
          · have hstep : sumStep (some f0) item = some f0 := by
              simp only [sumStep, hb]
              rw [if_neg h1, if_neg h2]
            rw [List.foldl_cons, hstep] at hf
            obtain ⟨f', hf', hv⟩ := sumFold_mono l f0
            rw [hf] at hf'
            have heq : f = f' := Option.some.inj hf'
            subst heq
            show f.value - tol ≤ b
            linarith
    · rw [List.foldl_cons] at hf
      exact ih (sumStep acc x) f hf item hmem b hb

theorem sumFold_mem (l : List PerPlayer) :
    ∀ (acc : Option Fastest) (f : Fastest),
    l.foldl sumStep acc = some f →
    (∃ f0, acc = some f0 ∧ f0.value = f.value) ∨ ∃ item ∈ l, item.best = some f.value := by
  induction l with
  | nil => intro acc f hf; exact Or.inl ⟨f, hf, rfl⟩
  | cons x l ih =>
    intro acc f hf
    rcases hx : x.best with _ | b
    · have hstep : sumStep acc x = acc := by
        cases acc <;> simp only [sumStep, hx]
      rw [List.foldl_cons, hstep] at hf
      rcases ih acc f hf with h | ⟨item, hm, hb⟩
      · exact Or.inl h
      · exact Or.inr ⟨item, List.mem_cons_of_mem x hm, hb⟩
    · rcases acc with _ | f0
      · have hstep : sumStep none x = some ⟨x.player, b, none⟩ := by
          simp only [sumStep, hx]
        rw [List.foldl_cons, hstep] at hf
        rcases ih _ f hf with ⟨f1, hf1, hv⟩ | ⟨item, hm, hb⟩
        · have : (⟨x.player, b, none⟩ : Fastest) = f1 := Option.some.inj hf1
          refine Or.inr ⟨x, List.mem_cons_self x l, ?_⟩
          rw [hx]
          subst this
          simp only at hv
          rw [hv]
        · exact Or.inr ⟨item, List.mem_cons_of_mem x hm, hb⟩
      · by_cases h1 : b < f0.value - tol
        · have hstep : sumStep (some f0) x = some ⟨x.player, b, none⟩ := by
            simp only [sumStep, hx]
            rw [if_pos h1]
          rw [List.foldl_cons, hstep] at hf
          rcases ih _ f hf with ⟨f1, hf1, hv⟩ | ⟨item, hm, hb⟩
          · have : (⟨x.player, b, none⟩ : Fastest) = f1 := Option.some.inj hf1
            refine Or.inr ⟨x, List.mem_cons_self x l, ?_⟩
            rw [hx]
            subst this
            simp only at hv
            rw [hv]
          · exact Or.inr ⟨item, List.mem_cons_of_mem x hm, hb⟩
        · by_cases h2 : |b - f0.value| ≤ tol
          · have hstep : sumStep (some f0) x
                = some ⟨f0.player, f0.value,
                    some (addToSet (f0.players.getD [f0.player]) x.player)⟩ := by
              simp only [sumStep, hx]
              rw [if_neg h1, if_pos h2]
            rw [List.foldl_cons, hstep] at hf
            rcases ih _ f hf with ⟨f1, hf1, hv⟩ | ⟨item, hm, hb⟩
            · have heq : (⟨f0.player, f0.value,
                  some (addToSet (f0.players.getD [f0.player]) x.player)⟩ : Fastest) = f1 :=
                Option.some.inj hf1
              refine Or.inl ⟨f0, rfl, ?_⟩
              rw [← hv, ← heq]
            · exact Or.inr ⟨item, List.mem_cons_of_mem x hm, hb⟩
          · have hstep : sumStep (some f0) x = some f0 := by
              simp only [sumStep, hx]
              rw [if_neg h1, if_neg h2]
            rw [List.foldl_cons, hstep] at hf
            rcases ih _ f hf with ⟨f1, hf1, hv⟩ | ⟨item, hm, hb⟩
            · have heq : f0 = f1 := Option.some.inj hf1
              exact Or.inl ⟨f0, rfl, heq ▸ hv⟩
            · exact Or.inr ⟨item, List.mem_cons_of_mem x hm, hb⟩

theorem updateResponseStats_snoc (l : List ResultItem) (m0 m : StatsMap) (b : ℚ)
    (ps : List String) (p : String) (t : ℚ)
    (h : updateResponseStats l m0 = (m, ⟨some b, ps⟩)) (h1 : b - tol ≤ t) (h2 : t < b) :
    updateResponseStats (l ++ [⟨p, some t⟩]) m0
      = (upsert m p t, ⟨some b, addToSet ps p⟩) := by
  unfold updateResponseStats at *
  rw [List.foldl_append, h, List.foldl_cons, List.foldl_nil]
  simp only [updStep]
  rw [if_neg (not_lt.mpr h1), if_pos (abs_le.mpr ⟨by linarith, by linarith⟩)]

/-- C9: within one aggregation pass, a response time strictly below the
current fastest but within the 1e-6 tolerance of it does not replace the
fastest value: the player joins the tie set while the reported value stays
the earlier, larger one; consequently the reported question-fastest value is
one of the observed times and every observed time is at least the reported
value minus the tolerance (so it matches the true minimum only up to 1e-6),
the session-fastest value satisfies the same bounds against the per-player
bests, and the reported value depends on the order of the results. -/
theorem tolerance_tie_semantics :
    (∀ (l : List ResultItem) (m0 m : StatsMap) (b : ℚ) (ps : List String)
        (p : String) (t : ℚ),
      updateResponseStats l m0 = (m, ⟨some b, ps⟩) → b - tol ≤ t → t < b →
      updateResponseStats (l ++ [⟨p, some t⟩]) m0
        = (upsert m p t, ⟨some b, addToSet ps p⟩))
    ∧ (∀ (l : List ResultItem) (m0 : StatsMap) (b : ℚ),
      (updateResponseStats l m0).2.bestTime = some b →
      (∀ item ∈ l, ∀ t : ℚ, item.response_time = some t → b - tol ≤ t)
        ∧ ∃ item ∈ l, item.response_time = some b)
    ∧ (∀ (m : StatsMap) (f : Fastest),
      (buildTimingSummary m).fastest = some f →
      (∀ e ∈ m, ∀ b : ℚ, e.2.best = some b → f.value - tol ≤ b)
        ∧ ∃ e ∈ m, e.2.best = some f.value)
    ∧ (updateResponseStats [⟨"A", some 2⟩, ⟨"B", some (2 - 1/2000000)⟩] []).2
        = ⟨some 2, ["A", "B"]⟩
    ∧ (updateResponseStats [⟨"B", some (2 - 1/2000000)⟩, ⟨"A", some 2⟩] []).2
        = ⟨some (2 - 1/2000000), ["B", "A"]⟩
  := by
  refine ⟨updateResponseStats_snoc, ?_, ?_, ?_, ?_⟩
  · intro l m0 b h
    unfold updateResponseStats at h
    refine ⟨updFold_lower l m0 ⟨none, []⟩ b h, ?_⟩
    rcases updFold_mem l m0 ⟨none, []⟩ b h with h' | h'
    · exact absurd h' (by simp)
    · exact h'
  · intro m f h
    unfold buildTimingSummary at h
    dsimp only at h
    constructor
    · intro e he b hb
      exact sumFold_lower _ none f h _ (List.mem_map_of_mem _ he) b hb
    · rcases sumFold_mem _ none f h with ⟨f0, hf0, _⟩ | ⟨item, hm, hb⟩
      · exact absurd hf0 (by simp)
      · obtain ⟨e, he, hpe⟩ := List.mem_map.mp hm
        exact ⟨e, he, by rw [← hb, ← hpe]⟩
  · norm_num [updateResponseStats, updStep, upsert, applyResult, freshStats, addToSet,
      tol, abs_le]
    decide
  · norm_num [updateResponseStats, updStep, upsert, applyResult, freshStats, addToSet,
      tol, abs_le]
    decide

/-- C9 witness: the within-tolerance no-replace property applied at response
time 2 followed by 2 minus 5e-7 from a different player. -/
theorem tolerance_tie_semantics_witness :
    updateResponseStats ([⟨"A", some 2⟩] ++ [⟨"B", some (2 - 1/2000000)⟩]) []
      = (upsert [("A", ⟨1, 2, some 2, some 2⟩)] "B" (2 - 1/2000000),
          ⟨some 2, addToSet ["A"] "B"⟩) :=
  tolerance_tie_semantics.1 [⟨"A", some 2⟩] [] [("A", ⟨1, 2, some 2, some 2⟩)] 2 ["A"]
    "B" (2 - 1/2000000)
    (by simp [updateResponseStats, updStep, upsert, applyResult, freshStats])
    (by norm_num [tol]) (by norm_num)

end QuizScreen
